import Mathlib

/-!
Verification of the academic-services queue system (`queue_system.py`).

The development shallowly embeds the core module: tickets, one `Service`
(FIFO waiting queue, current-serving slot, served history, schedule and a
waiting-time estimator) and the `QueueSystem` registry.  Python integers are
modelled by `ℤ`/`ℕ`.  The waiting-time estimator performs CPython `float`
arithmetic — IEEE-754 binary64 with round-to-nearest, ties-to-even — which is
modelled exactly by dyadic rationals `m * 2^e` with an unbounded exponent
(overflow and subnormals, irrelevant at the magnitudes of interest, are not
modelled).  All definitions are executable so that concrete runs of the code
can be evaluated inside proofs.
-/

namespace AcademicQueue

/-! ## Exact model of binary64 rounding

CPython `int / int` produces the correctly rounded binary64 value of the exact
quotient, `float * float` the correctly rounded product, and `int(x)` truncates
toward zero.  The model computes with integer mantissa/exponent pairs only, so
every concrete instance reduces inside the kernel. -/

/-- Fuel-driven base-2 logarithm, structurally recursive so that the kernel can
evaluate it; it agrees with `Nat.log 2` once the fuel dominates the input. -/
def log2Fuel : ℕ → ℕ → ℕ
  | 0, _ => 0
  | fuel + 1, n => if 2 ≤ n then log2Fuel fuel (n / 2) + 1 else 0

/-- Floor of the base-2 logarithm of a natural number (`natLog2 0 = 0`). -/
def natLog2 (n : ℕ) : ℕ := log2Fuel n n

/-- Round `n / d` (with `d > 0`) to the nearest natural number, ties to even. -/
def rneNat (n d : ℕ) : ℕ :=
  let q := n / d
  let r := n % d
  if 2 * r < d then q
  else if d < 2 * r then q + 1
  else if q % 2 = 0 then q else q + 1

/-- Round `n / d` (with `d > 0`) to the nearest integer, ties to even. -/
def rne (n : ℤ) (d : ℕ) : ℤ :=
  if 0 ≤ n then (rneNat n.toNat d : ℤ) else -(rneNat (-n).toNat d : ℤ)

/-- IEEE-754 binary64 rounding (round to nearest, ties to even) of the rational
`n / d` (with `d > 0`), returned as a dyadic pair `(m, e)` denoting `m * 2^e`
with `2^52 ≤ |m| ≤ 2^53` for nonzero input.  The exponent is unbounded. -/
def flRat (n : ℤ) (d : ℕ) : ℤ × ℤ :=
  if n = 0 then (0, 0)
  else
    let E : ℤ := (natLog2 n.natAbs : ℤ) - (natLog2 d : ℤ)
    let s : ℤ := 52 - E
    let N : ℤ := if 0 ≤ s then n * ((2 ^ s.toNat : ℕ) : ℤ) else n
    let D : ℕ := if 0 ≤ s then d else d * 2 ^ (-s).toNat
    if N.natAbs < 2 ^ 52 * D then (rne (2 * N) D, -(s + 1)) else (rne N D, -s)

/-- binary64 rounding of the dyadic value `m * 2^e`. -/
def flDyadic (m e : ℤ) : ℤ × ℤ :=
  if 0 ≤ e then flRat (m * ((2 ^ e.toNat : ℕ) : ℤ)) 1
  else flRat m (2 ^ (-e).toNat)

/-- Truncation toward zero of the dyadic value `m * 2^e` — the Python `int()`
conversion applied to a float. -/
def truncDyadic (p : ℤ × ℤ) : ℤ :=
  if 0 ≤ p.2 then p.1 * ((2 ^ p.2.toNat : ℕ) : ℤ)
  else
    if 0 ≤ p.1 then ((p.1.toNat / 2 ^ (-p.2).toNat : ℕ) : ℤ)
    else -(((-p.1).toNat / 2 ^ (-p.2).toNat : ℕ) : ℤ)

/-- Rational value of a dyadic mantissa/exponent pair. -/
def dval (p : ℤ × ℤ) : ℚ := (p.1 : ℚ) * 2 ^ p.2

/-- Mathematical round-to-nearest-integer, ties to even, on the rationals. -/
def rte (q : ℚ) : ℤ :=
  if Int.fract q < 1 / 2 then ⌊q⌋
  else if 1 / 2 < Int.fract q then ⌊q⌋ + 1
  else if ⌊q⌋ % 2 = 0 then ⌊q⌋ else ⌊q⌋ + 1

theorem log2Fuel_eq_log (fuel : ℕ) : ∀ n : ℕ, n ≤ fuel → log2Fuel fuel n = Nat.log 2 n := by
  induction fuel with
  | zero => intro n hn; interval_cases n; simp [log2Fuel]
  | succ fuel ih =>
    intro n hn
    rw [log2Fuel]
    by_cases h2 : 2 ≤ n
    · rw [if_pos h2, ih (n / 2) (by omega)]
      have hpos : 0 < Nat.log 2 n := Nat.log_pos one_lt_two h2
      have hdiv := Nat.log_div_base 2 n
      omega
    · rw [if_neg h2, eq_comm, Nat.log_eq_zero_iff]; omega

theorem natLog2_eq_log (n : ℕ) : natLog2 n = Nat.log 2 n :=
  log2Fuel_eq_log n n le_rfl

theorem floor_le_rte (q : ℚ) : ⌊q⌋ ≤ rte q := by
  unfold rte; split_ifs <;> omega

theorem rte_le_floor_add_one (q : ℚ) : rte q ≤ ⌊q⌋ + 1 := by
  unfold rte; split_ifs <;> omega

theorem rte_mono {a b : ℚ} (hab : a ≤ b) : rte a ≤ rte b := by
  rcases lt_or_eq_of_le (Int.floor_le_floor hab) with hf | hf
  · calc rte a ≤ ⌊a⌋ + 1 := rte_le_floor_add_one a
    _ ≤ ⌊b⌋ := by omega
    _ ≤ rte b := floor_le_rte b
  · have hfr : Int.fract a ≤ Int.fract b := by
      unfold Int.fract; rw [hf]; linarith
    unfold rte
    rw [hf]
    split_ifs <;> first | omega | (exfalso; linarith)

theorem floor_natCast_div_natCast (a b : ℕ) : ⌊(a : ℚ) / b⌋ = ((a / b : ℕ) : ℤ) := by
  rw [show ((a : ℚ)) = ((a : ℤ) : ℚ) by push_cast; ring, Rat.floor_intCast_div_natCast]
  omega

theorem fract_natCast_div_natCast (a b : ℕ) (hb : 0 < b) :
    Int.fract ((a : ℚ) / b) = ((a % b : ℕ) : ℚ) / b := by
  have hb0 : (b : ℚ) ≠ 0 := by positivity
  have h3 : a / b * b + a % b = a := by rw [mul_comm]; exact Nat.div_add_mod a b
  have h2 : (a : ℚ) = ((a / b : ℕ) : ℚ) * b + ((a % b : ℕ) : ℚ) := by exact_mod_cast h3.symm
  rw [Int.fract, floor_natCast_div_natCast]
  have h4 : ((((a / b : ℕ) : ℤ)) : ℚ) = ((a / b : ℕ) : ℚ) := Int.cast_natCast _
  rw [h4, eq_div_iff hb0, sub_mul, div_mul_cancel₀ _ hb0]
  linarith

theorem rneNat_eq_rte (n d : ℕ) (hd : 0 < d) : (rneNat n d : ℤ) = rte ((n : ℚ) / d) := by
  have hb0 : (0 : ℚ) < (d : ℚ) := by exact_mod_cast hd
  have hfl := floor_natCast_div_natCast n d
  have hfr := fract_natCast_div_natCast n d hd
  have hlt : (Int.fract ((n : ℚ) / d) < 1 / 2) ↔ 2 * (n % d) < d := by
    rw [hfr, div_lt_div_iff₀ hb0 two_pos, one_mul, mul_comm ((n % d : ℕ) : ℚ) 2]
    exact_mod_cast Iff.rfl
  have hgt : ((1 : ℚ) / 2 < Int.fract ((n : ℚ) / d)) ↔ d < 2 * (n % d) := by
    rw [hfr, div_lt_div_iff₀ two_pos hb0, one_mul, mul_comm ((n % d : ℕ) : ℚ) 2]
    exact_mod_cast Iff.rfl
  by_cases h1 : 2 * (n % d) < d
  · have hL : rneNat n d = n / d := by unfold rneNat; rw [if_pos h1]
    have hR : rte ((n : ℚ) / d) = ⌊(n : ℚ) / d⌋ := by unfold rte; rw [if_pos (hlt.2 h1)]
    rw [hL, hR, hfl]
  · by_cases h2 : d < 2 * (n % d)
    · have hL : rneNat n d = n / d + 1 := by unfold rneNat; rw [if_neg h1, if_pos h2]
      have hR : rte ((n : ℚ) / d) = ⌊(n : ℚ) / d⌋ + 1 := by
        unfold rte; rw [if_neg (by rw [hlt]; exact h1), if_pos (hgt.2 h2)]
      rw [hL, hR, hfl]; push_cast; ring
    · by_cases h3 : (n / d) % 2 = 0
      · have hL : rneNat n d = n / d := by unfold rneNat; rw [if_neg h1, if_neg h2, if_pos h3]
        have hR : rte ((n : ℚ) / d) = ⌊(n : ℚ) / d⌋ := by
          unfold rte
          rw [if_neg (by rw [hlt]; exact h1), if_neg (by rw [hgt]; exact h2), hfl,
            if_pos (by omega)]
        rw [hL, hR, hfl]
      · have hL : rneNat n d = n / d + 1 := by
          unfold rneNat; rw [if_neg h1, if_neg h2, if_neg h3]
        have hR : rte ((n : ℚ) / d) = ⌊(n : ℚ) / d⌋ + 1 := by
          unfold rte
          rw [if_neg (by rw [hlt]; exact h1), if_neg (by rw [hgt]; exact h2), hfl,
            if_neg (by omega)]
        rw [hL, hR, hfl]; push_cast; ring

theorem rne_eq_rte (n : ℤ) (d : ℕ) (hn : 0 ≤ n) (hd : 0 < d) :
    rne n d = rte ((n : ℚ) / d) := by
  rw [rne, if_pos hn, rneNat_eq_rte n.toNat d hd]
  have h : ((n.toNat : ℕ) : ℚ) = (n : ℚ) := by exact_mod_cast Int.toNat_of_nonneg hn
  rw [h]

/-- Specification of binary64 rounding: the dyadic pair `p` is the correctly
rounded (round to nearest, ties to even) representation of the positive
rational `q`, with a normalized 53-bit mantissa. -/
def FlSpec (q : ℚ) (p : ℤ × ℤ) : Prop :=
  (2 : ℤ) ^ 52 ≤ p.1 ∧ p.1 ≤ 2 ^ 53 ∧ p.1 = rte (q * 2 ^ (-p.2)) ∧
  (2 : ℚ) ^ 52 * 2 ^ p.2 ≤ q ∧ q < (2 : ℚ) ^ 53 * 2 ^ p.2

theorem flSpec_of_scaled {q x : ℚ} {s : ℤ} (hx : x = q * 2 ^ s)
    (hlo : ((2 : ℚ)) ^ 52 ≤ x) (hhi : x < (2 : ℚ) ^ 53) :
    FlSpec q (rte x, -s) := by
  have hfloor_lo : ((2 : ℤ)) ^ 52 ≤ ⌊x⌋ := by
    rw [Int.le_floor]; push_cast; exact hlo
  have hfloor_hi : ⌊x⌋ < (2 : ℤ) ^ 53 := by
    rw [Int.floor_lt]; push_cast; exact hhi
  have hqx : q = x * 2 ^ (-s) := by
    rw [hx, mul_assoc, ← zpow_add₀ (two_ne_zero (α := ℚ)), add_neg_cancel, zpow_zero, mul_one]
  refine ⟨?_, ?_, ?_, ?_, ?_⟩
  · show (2 : ℤ) ^ 52 ≤ rte x
    exact le_trans hfloor_lo (floor_le_rte x)
  · show rte x ≤ (2 : ℤ) ^ 53
    exact le_trans (rte_le_floor_add_one x) (by omega)
  · show rte x = rte (q * 2 ^ (-(-s)))
    rw [neg_neg, ← hx]
  · show (2 : ℚ) ^ 52 * 2 ^ (-s) ≤ q
    rw [hqx]
    exact mul_le_mul_of_nonneg_right hlo (le_of_lt (zpow_pos two_pos _))
  · show q < (2 : ℚ) ^ 53 * 2 ^ (-s)
    rw [hqx]
    exact mul_lt_mul_of_pos_right hhi (zpow_pos two_pos _)

theorem flRat_core (n : ℤ) (d : ℕ) (s : ℤ)
    (N : ℤ) (D : ℕ) (hND : ((N : ℚ)) / D = (n : ℚ) / d * 2 ^ s)
    (hNpos : 0 < N) (hDpos : 0 < D)
    (hvl : ((2 : ℚ)) ^ 51 < (n : ℚ) / d * 2 ^ s)
    (hvu : (n : ℚ) / d * 2 ^ s < (2 : ℚ) ^ 53) :
    FlSpec ((n : ℚ) / d)
      (if N.natAbs < 2 ^ 52 * D then (rne (2 * N) D, -(s + 1)) else (rne N D, -s)) := by
  have hDq : (0 : ℚ) < (D : ℚ) := by exact_mod_cast hDpos
  have hNabs : ((N.natAbs : ℕ) : ℤ) = N := Int.natAbs_of_nonneg (le_of_lt hNpos)
  have hcond : (N.natAbs < 2 ^ 52 * D) ↔ ((N : ℚ) / D < 2 ^ 52) := by
    rw [div_lt_iff₀ hDq]
    constructor
    · intro h
      have h2 : (((N.natAbs : ℕ) : ℤ) : ℚ) < (((2 ^ 52 * D : ℕ) : ℤ) : ℚ) := by exact_mod_cast h
      rw [hNabs] at h2
      calc (N : ℚ) < (((2 ^ 52 * D : ℕ) : ℤ) : ℚ) := h2
      _ = 2 ^ 52 * D := by push_cast; ring
    · intro h
      have h2 : (((N.natAbs : ℕ) : ℤ) : ℚ) < (((2 ^ 52 * D : ℕ) : ℤ) : ℚ) := by
        rw [hNabs]
        calc (N : ℚ) < 2 ^ 52 * D := h
        _ = (((2 ^ 52 * D : ℕ) : ℤ) : ℚ) := by push_cast; ring
      exact_mod_cast h2
  by_cases hc : N.natAbs < 2 ^ 52 * D
  · rw [if_pos hc]
    have hx : ((2 * N : ℤ) : ℚ) / D = (n : ℚ) / d * 2 ^ (s + 1) := by
      rw [zpow_add₀ (two_ne_zero (α := ℚ)), zpow_one]
      push_cast
      calc 2 * (N : ℚ) / D = (N : ℚ) / D * 2 := by ring
      _ = (n : ℚ) / d * 2 ^ s * 2 := by rw [hND]
      _ = (n : ℚ) / d * (2 ^ s * 2) := by ring
    have hrw : rne (2 * N) D = rte (((2 * N : ℤ) : ℚ) / D) :=
      rne_eq_rte (2 * N) D (by omega) hDpos
    rw [hrw]
    apply flSpec_of_scaled hx
    · rw [hx, zpow_add₀ (two_ne_zero (α := ℚ)), zpow_one, ← mul_assoc]
      have h52 : (2 : ℚ) ^ 52 = 2 ^ 51 * 2 := by ring
      rw [h52]
      exact mul_le_mul_of_nonneg_right (le_of_lt hvl) (by norm_num)
    · rw [hx, zpow_add₀ (two_ne_zero (α := ℚ)), zpow_one, ← mul_assoc]
      have hvlt : (n : ℚ) / d * 2 ^ s < 2 ^ 52 := by rw [← hND]; exact hcond.1 hc
      calc (n : ℚ) / d * 2 ^ s * 2 < 2 ^ 52 * 2 := mul_lt_mul_of_pos_right hvlt (by norm_num)
      _ = 2 ^ 53 := by ring
  · rw [if_neg hc]
    have hrw : rne N D = rte ((N : ℚ) / D) := rne_eq_rte N D (le_of_lt hNpos) hDpos
    rw [hrw]
    apply flSpec_of_scaled hND
    · exact le_of_not_lt (fun hlt => hc (hcond.2 hlt))
    · rw [hND]; exact hvu

theorem pow_natLog2_le {n : ℕ} (hn : n ≠ 0) : 2 ^ natLog2 n ≤ n := by
  rw [natLog2_eq_log]; exact Nat.pow_log_le_self 2 hn

theorem lt_pow_natLog2_succ (n : ℕ) : n < 2 ^ (natLog2 n + 1) := by
  rw [natLog2_eq_log]; exact Nat.lt_pow_succ_log_self one_lt_two n

theorem flRat_flSpec {n : ℤ} {d : ℕ} (hn : 0 < n) (hd : 0 < d) :
    FlSpec ((n : ℚ) / d) (flRat n d) := by
  have hn0 : n ≠ 0 := ne_of_gt hn
  have hdq : (0 : ℚ) < (d : ℚ) := by exact_mod_cast hd
  have hnAbs : ((n.natAbs : ℕ) : ℤ) = n := Int.natAbs_of_nonneg (le_of_lt hn)
  simp only [flRat, if_neg hn0]
  set la : ℕ := natLog2 n.natAbs with hla_def
  set ld : ℕ := natLog2 d with hld_def
  set s : ℤ := 52 - ((la : ℤ) - (ld : ℤ)) with hs_def
  have hA : (2 : ℚ) ^ ((la : ℕ) : ℤ) ≤ (n : ℚ) := by
    rw [zpow_natCast]
    have h1 : 2 ^ la ≤ n.natAbs := pow_natLog2_le (Int.natAbs_ne_zero.mpr hn0)
    have h2 : ((2 ^ la : ℕ) : ℚ) ≤ ((n.natAbs : ℕ) : ℚ) := by exact_mod_cast h1
    have h4 := congrArg (fun z : ℤ => (z : ℚ)) hnAbs
    have h3 : ((n.natAbs : ℕ) : ℚ) = (n : ℚ) := (Int.cast_natCast _).symm.trans h4
    rw [h3] at h2
    calc (2 : ℚ) ^ la = ((2 ^ la : ℕ) : ℚ) := by push_cast; ring
    _ ≤ (n : ℚ) := h2
  have hB : (n : ℚ) < 2 ^ (((la : ℕ) : ℤ) + 1) := by
    rw [show ((la : ℕ) : ℤ) + 1 = (((la + 1 : ℕ)) : ℤ) by push_cast; ring, zpow_natCast]
    have h1 : n.natAbs < 2 ^ (la + 1) := lt_pow_natLog2_succ n.natAbs
    have h4 := congrArg (fun z : ℤ => (z : ℚ)) hnAbs
    have h3 : ((n.natAbs : ℕ) : ℚ) = (n : ℚ) := (Int.cast_natCast _).symm.trans h4
    calc (n : ℚ) = ((n.natAbs : ℕ) : ℚ) := h3.symm
    _ < ((2 ^ (la + 1) : ℕ) : ℚ) := by exact_mod_cast h1
    _ = 2 ^ (la + 1) := by push_cast; ring
  have hC : (2 : ℚ) ^ ((ld : ℕ) : ℤ) ≤ (d : ℚ) := by
    rw [zpow_natCast]
    have h1 : 2 ^ ld ≤ d := pow_natLog2_le (by omega)
    calc (2 : ℚ) ^ ld = ((2 ^ ld : ℕ) : ℚ) := by push_cast; ring
    _ ≤ (d : ℚ) := by exact_mod_cast h1
  have hD2 : (d : ℚ) < 2 ^ (((ld : ℕ) : ℤ) + 1) := by
    rw [show ((ld : ℕ) : ℤ) + 1 = (((ld + 1 : ℕ)) : ℤ) by push_cast; ring, zpow_natCast]
    have h1 : d < 2 ^ (ld + 1) := lt_pow_natLog2_succ d
    calc (d : ℚ) < ((2 ^ (ld + 1) : ℕ) : ℚ) := by exact_mod_cast h1
    _ = 2 ^ (ld + 1) := by push_cast; ring
  have hvl : ((2 : ℚ)) ^ 51 < (n : ℚ) / d * 2 ^ s := by
    rw [div_mul_eq_mul_div, lt_div_iff₀ hdq]
    calc (2 : ℚ) ^ 51 * d < 2 ^ 51 * 2 ^ (((ld : ℕ) : ℤ) + 1) :=
          mul_lt_mul_of_pos_left hD2 (by positivity)
    _ = 2 ^ ((la : ℕ) : ℤ) * 2 ^ s := by
          rw [← zpow_natCast (2 : ℚ) 51, ← zpow_add₀ (two_ne_zero (α := ℚ)),
            show ((51 : ℕ) : ℤ) + (((ld : ℕ) : ℤ) + 1) = ((la : ℕ) : ℤ) + s by omega,
            zpow_add₀ (two_ne_zero (α := ℚ))]
    _ ≤ (n : ℚ) * 2 ^ s := mul_le_mul_of_nonneg_right hA (le_of_lt (zpow_pos two_pos s))
  have hvu : (n : ℚ) / d * 2 ^ s < (2 : ℚ) ^ 53 := by
    rw [div_mul_eq_mul_div, div_lt_iff₀ hdq]
    calc (n : ℚ) * 2 ^ s < 2 ^ (((la : ℕ) : ℤ) + 1) * 2 ^ s :=
          mul_lt_mul_of_pos_right hB (zpow_pos two_pos s)
    _ = 2 ^ 53 * 2 ^ ((ld : ℕ) : ℤ) := by
          rw [← zpow_add₀ (two_ne_zero (α := ℚ)), ← zpow_natCast (2 : ℚ) 53,
            ← zpow_add₀ (two_ne_zero (α := ℚ)),
            show (((la : ℕ) : ℤ) + 1) + s = ((53 : ℕ) : ℤ) + ((ld : ℕ) : ℤ) by omega]
    _ ≤ 2 ^ 53 * d := mul_le_mul_of_nonneg_left hC (by positivity)
  by_cases hspos : 0 ≤ s
  · rw [if_pos hspos, if_pos hspos]
    have hpow : ((2 ^ s.toNat : ℕ) : ℚ) = (2 : ℚ) ^ s := by
      push_cast
      rw [← zpow_natCast (2 : ℚ) s.toNat]
      congr 1
      omega
    refine flRat_core n d s (n * ((2 ^ s.toNat : ℕ) : ℤ)) d ?_ ?_ hd hvl hvu
    · push_cast
      rw [show ((2 : ℚ)) ^ s.toNat = (2 : ℚ) ^ s by
        rw [← zpow_natCast (2 : ℚ) s.toNat]; congr 1; omega]
      ring
    · have : (0 : ℤ) < ((2 ^ s.toNat : ℕ) : ℤ) := by positivity
      exact mul_pos hn this
  · rw [if_neg hspos, if_neg hspos]
    have hpow : ((2 ^ (-s).toNat : ℕ) : ℚ) = (2 : ℚ) ^ (-s) := by
      push_cast
      rw [← zpow_natCast (2 : ℚ) (-s).toNat]
      congr 1
      omega
    refine flRat_core n d s n (d * 2 ^ (-s).toNat) ?_ hn ?_ hvl hvu
    · push_cast
      rw [show ((2 : ℚ)) ^ ((-s).toNat) = (2 : ℚ) ^ (-s) by
        rw [← zpow_natCast (2 : ℚ) (-s).toNat]; congr 1; omega]
      rw [div_mul_eq_div_div, div_eq_mul_inv ((n : ℚ) / d), ← zpow_neg, neg_neg]
    · positivity

theorem FlSpec.dval_pos {q : ℚ} {p : ℤ × ℤ} (h : FlSpec q p) : 0 < dval p := by
  obtain ⟨h1, -, -, -, -⟩ := h
  have hm : (0 : ℚ) < (p.1 : ℚ) := by
    have : (0 : ℤ) < p.1 := lt_of_lt_of_le (by positivity) h1
    exact_mod_cast this
  exact mul_pos hm (zpow_pos two_pos _)

theorem FlSpec.dval_le {q1 q2 : ℚ} {p1 p2 : ℤ × ℤ} (h1 : FlSpec q1 p1) (h2 : FlSpec q2 p2)
    (hq : q1 ≤ q2) : dval p1 ≤ dval p2 := by
  obtain ⟨hm1lo, hm1hi, hr1, hv1lo, hv1hi⟩ := h1
  obtain ⟨hm2lo, hm2hi, hr2, hv2lo, hv2hi⟩ := h2
  rcases lt_trichotomy p1.2 p2.2 with he | he | he
  · calc dval p1 = (p1.1 : ℚ) * 2 ^ p1.2 := rfl
    _ ≤ 2 ^ 53 * 2 ^ p1.2 :=
        mul_le_mul_of_nonneg_right (by exact_mod_cast hm1hi) (le_of_lt (zpow_pos two_pos _))
    _ = 2 ^ 52 * (2 * 2 ^ p1.2) := by ring
    _ = 2 ^ 52 * 2 ^ (p1.2 + 1) := by
        rw [zpow_add₀ (two_ne_zero (α := ℚ)), zpow_one]; ring
    _ ≤ 2 ^ 52 * 2 ^ p2.2 := by
        apply mul_le_mul_of_nonneg_left _ (by positivity)
        exact zpow_le_zpow_right₀ one_le_two (by omega)
    _ ≤ (p2.1 : ℚ) * 2 ^ p2.2 :=
        mul_le_mul_of_nonneg_right (by exact_mod_cast hm2lo) (le_of_lt (zpow_pos two_pos _))
    _ = dval p2 := rfl
  · have hmle : p1.1 ≤ p2.1 := by
      rw [hr1, hr2, he]
      exact rte_mono (mul_le_mul_of_nonneg_right hq (le_of_lt (zpow_pos two_pos _)))
    show (p1.1 : ℚ) * 2 ^ p1.2 ≤ (p2.1 : ℚ) * 2 ^ p2.2
    rw [he]
    exact mul_le_mul_of_nonneg_right (by exact_mod_cast hmle) (le_of_lt (zpow_pos two_pos _))
  · exfalso
    have hstep : (2 : ℚ) ^ 53 * 2 ^ p2.2 ≤ 2 ^ 52 * 2 ^ p1.2 := by
      have h253 : (2 : ℚ) ^ 53 = 2 ^ 52 * 2 := by ring
      rw [h253, mul_assoc]
      apply mul_le_mul_of_nonneg_left _ (by positivity)
      calc (2 : ℚ) * 2 ^ p2.2 = 2 ^ (p2.2 + 1) := by
            rw [zpow_add₀ (two_ne_zero (α := ℚ)), zpow_one]; ring
      _ ≤ 2 ^ p1.2 := zpow_le_zpow_right₀ one_le_two (by omega)
    exact absurd hq (not_le.mpr (lt_of_lt_of_le hv2hi (le_trans hstep hv1lo)))

theorem flDyadic_flSpec {m e : ℤ} (hm : 0 < m) : FlSpec ((m : ℚ) * 2 ^ e) (flDyadic m e) := by
  rw [flDyadic]
  by_cases he : 0 ≤ e
  · rw [if_pos he]
    have h1 := flRat_flSpec (n := m * ((2 ^ e.toNat : ℕ) : ℤ)) (d := 1)
      (mul_pos hm (by positivity)) one_pos
    have h2 : ((m * ((2 ^ e.toNat : ℕ) : ℤ) : ℤ) : ℚ) / ((1 : ℕ) : ℚ) = (m : ℚ) * 2 ^ e := by
      push_cast
      rw [div_one, ← zpow_natCast (2 : ℚ) e.toNat,
        show ((e.toNat : ℕ) : ℤ) = e by omega]
    rw [h2] at h1
    exact h1
  · rw [if_neg he]
    have h1 := flRat_flSpec (n := m) (d := 2 ^ (-e).toNat) hm (by positivity)
    have h2 : (m : ℚ) / ((2 ^ (-e).toNat : ℕ) : ℚ) = (m : ℚ) * 2 ^ e := by
      push_cast
      rw [← zpow_natCast (2 : ℚ) (-e).toNat, show (((-e).toNat : ℕ) : ℤ) = -e by omega,
        div_eq_mul_inv, ← zpow_neg, neg_neg]
    rw [h2] at h1
    exact h1

theorem truncDyadic_eq_floor {p : ℤ × ℤ} (hm : 0 ≤ p.1) : truncDyadic p = ⌊dval p⌋ := by
  rw [truncDyadic, dval]
  by_cases he : 0 ≤ p.2
  · rw [if_pos he]
    have hval : (p.1 : ℚ) * 2 ^ p.2 = ((p.1 * ((2 ^ p.2.toNat : ℕ) : ℤ) : ℤ) : ℚ) := by
      push_cast
      rw [← zpow_natCast (2 : ℚ) p.2.toNat, show ((p.2.toNat : ℕ) : ℤ) = p.2 by omega]
    rw [hval, Int.floor_intCast]
  · rw [if_neg he, if_pos hm]
    have h1 : ((p.1.toNat : ℕ) : ℚ) = (p.1 : ℚ) := by exact_mod_cast Int.toNat_of_nonneg hm
    have h2 : ((2 ^ (-p.2).toNat : ℕ) : ℚ) = (2 : ℚ) ^ (-p.2) := by
      push_cast
      rw [← zpow_natCast (2 : ℚ) (-p.2).toNat]
      congr 1
      omega
    have hval : (p.1 : ℚ) * 2 ^ p.2 = ((p.1.toNat : ℕ) : ℚ) / ((2 ^ (-p.2).toNat : ℕ) : ℚ) := by
      rw [h1, h2, div_eq_mul_inv, ← zpow_neg, neg_neg]
    rw [hval, floor_natCast_div_natCast]

/-! ## Data model (`queue_system.py`)

Tickets and services are translated field by field from the source.  Python
string statuses are kept as strings; Python ints are modelled by `ℤ`.  The
`HH:MM` opening/closing strings are modelled by their two numeric fields. -/

/-- Conversion of an `HH:MM` time (given by its parsed fields) to minutes since
midnight, mirroring `time_to_minutes`. -/
def time_to_minutes (hours minutes : ℕ) : ℕ := hours * 60 + minutes

/-- One ticket: owning service code, sequence number, time of issue and a
mutable status string (`"waiting"`, `"serving"` or `"done"`). -/
structure Ticket where
  service_code : String
  number : ℤ
  time_taken_minutes : ℤ
  status : String
deriving DecidableEq

/-- One queue (`class Service`): configuration plus the mutable queue state
(`next_ticket_number`, waiting `queue`, `current_ticket`, `served_tickets`). -/
structure Service where
  code : String
  description : String
  avg_service_time_min : ℤ
  avg_staff_count : ℤ
  opening_time_min : ℤ
  closing_time_min : ℤ
  allowed_weekdays : List ℤ
  next_ticket_number : ℤ
  queue : List Ticket
  current_ticket : Option Ticket
  served_tickets : List Ticket
deriving DecidableEq

/-- The `Service` constructor (`Service.__init__`): opening and closing times
arrive as parsed `HH:MM` pairs, and omitting `allowed_weekdays` (passing
`none`) defaults to Monday through Friday. -/
def Service.init (code description : String) (avg_service_time_min avg_staff_count : ℤ)
    (opening_time closing_time : ℕ × ℕ) (allowed_weekdays : Option (List ℤ)) : Service :=
  { code := code
    description := description
    avg_service_time_min := avg_service_time_min
    avg_staff_count := avg_staff_count
    opening_time_min := (time_to_minutes opening_time.1 opening_time.2 : ℤ)
    closing_time_min := (time_to_minutes closing_time.1 closing_time.2 : ℤ)
    allowed_weekdays :=
      match allowed_weekdays with
      | none => [0, 1, 2, 3, 4]
      | some ws => ws
    next_ticket_number := 1
    queue := []
    current_ticket := none
    served_tickets := [] }

/-- Schedule check `Service.is_open`: allowed weekday, opening inclusive,
closing exclusive.  A pure function of the inputs and the configuration. -/
def Service.is_open (s : Service) (current_time_min weekday : ℤ) : Bool :=
  if weekday ∉ s.allowed_weekdays then false
  else if current_time_min < s.opening_time_min then false
  else if current_time_min ≥ s.closing_time_min then false
  else true

/-- Number of waiting tickets (`Service.people_waiting`). -/
def Service.people_waiting (s : Service) : ℤ := (s.queue.length : ℤ)

/-- The clamped staff count used by the estimator:
`staff = self.avg_staff_count if self.avg_staff_count > 0 else 1`. -/
def Service.staff (s : Service) : ℤ :=
  if 0 < s.avg_staff_count then s.avg_staff_count else 1

/-- Waiting-time estimator `Service._estimate_waiting_from_position`.  The
Python expression `int((effective_ahead / staff) * self.avg_service_time_min)`
is float arithmetic: a correctly rounded binary64 division, an exact int-to-
float conversion of the service time followed by a correctly rounded binary64
product, and an `int()` truncation toward zero. -/
def Service.estimate_waiting_from_position (s : Service) (people_ahead : ℤ) : ℤ :=
  if people_ahead < s.staff then 0
  else
    let effective_ahead := people_ahead - s.staff + 1
    let q := flRat effective_ahead s.staff.toNat
    let t := flRat s.avg_service_time_min 1
    truncDyadic (flDyadic (q.1 * t.1) (q.2 + t.2))

/-- Estimate for a freshly taken ticket
(`Service.estimate_waiting_time_for_new_ticket`): the new ticket lands behind
everyone currently waiting. -/
def Service.estimate_waiting_time_for_new_ticket (s : Service) : ℤ × ℤ :=
  (s.people_waiting, s.estimate_waiting_from_position s.people_waiting)

/-- Ticket issuance `Service.take_ticket`: allocate the next sequence number,
append at the tail, bump the counter; returns the updated service and the new
ticket. -/
def Service.take_ticket (s : Service) (current_time_min : ℤ) : Service × Ticket :=
  let ticket : Ticket :=
    { service_code := s.code
      number := s.next_ticket_number
      time_taken_minutes := current_time_min
      status := "waiting" }
  ({ s with
      queue := s.queue ++ [ticket]
      next_ticket_number := s.next_ticket_number + 1 }, ticket)

/-- Serving step `Service.call_next`: finish the current ticket (if any) into
the served history, then either clear the current slot (empty queue, returns
`none`) or promote the head of the queue to `serving`. -/
def Service.call_next (s : Service) : Service × Option Ticket :=
  let served :=
    match s.current_ticket with
    | none => s.served_tickets
    | some t => s.served_tickets ++ [{ t with status := "done" }]
  match s.queue with
  | [] => ({ s with served_tickets := served, current_ticket := none }, none)
  | t :: rest =>
    let t' : Ticket := { t with status := "serving" }
    ({ s with served_tickets := served, queue := rest, current_ticket := some t' }, some t')

/-- Index of the first waiting ticket bearing a given number, mirroring the
`enumerate` loop in `find_ticket_status`. -/
def firstIdxWithNumber : List Ticket → ℤ → Option ℕ
  | [], _ => none
  | t :: rest, number =>
    if t.number = number then some 0 else (firstIdxWithNumber rest number).map (· + 1)

/-- The waiting/done/not-found tail of the lookup, shared by both branches on
the current ticket. -/
def Service.lookupWaitingOrDone (s : Service) (number : ℤ) : String × Option (ℕ × ℤ) :=
  match firstIdxWithNumber s.queue number with
  | some idx => ("waiting", some (idx, s.estimate_waiting_from_position (idx : ℤ)))
  | none =>
    if s.served_tickets.any (fun t => t.number == number) then ("done", none)
    else ("not_found", none)

/-- Status lookup `Service.find_ticket_status`: current ticket first, then the
waiting queue in order, then the served history, else `not_found`. -/
def Service.find_ticket_status (s : Service) (number : ℤ) : String × Option (ℕ × ℤ) :=
  match s.current_ticket with
  | some t => if t.number = number then ("serving", none) else s.lookupWaitingOrDone number
  | none => s.lookupWaitingOrDone number

/-- The registry (`class QueueSystem`): an insertion-ordered map from codes to
services, as a Python dict is. -/
structure QueueSystem where
  services : List (String × Service)

/-- Python dict assignment `self.services[service.code] = service`: overwrite
in place if the key exists, else append. -/
def dictInsert : List (String × Service) → String → Service → List (String × Service)
  | [], k, v => [(k, v)]
  | (k', v') :: rest, k, v =>
    if k' = k then (k, v) :: rest else (k', v') :: dictInsert rest k v

/-- `QueueSystem.add_service`. -/
def QueueSystem.add_service (qs : QueueSystem) (service : Service) : QueueSystem :=
  ⟨dictInsert qs.services service.code service⟩

/-- `QueueSystem.get_service` (`dict.get`, `none` when absent). -/
def QueueSystem.get_service (qs : QueueSystem) (code : String) : Option Service :=
  (qs.services.find? (fun p => p.1 == code)).map Prod.snd

/-- `QueueSystem.get_service_codes`. -/
def QueueSystem.get_service_codes (qs : QueueSystem) : List String :=
  qs.services.map Prod.fst

/-- The default catalog `create_default_system`: six services, all open
Monday, Wednesday and Friday 10:00 to 13:00 with three staff members, the
weekday list passed explicitly. -/
def create_default_system : QueueSystem :=
  let mwf_only : List ℤ := [0, 2, 4]
  let aa := Service.init "AA" "Academic Services Bachelor Students" 10 3 (10, 0) (13, 0)
    (some mwf_only)
  let ab := Service.init "AB" "Academic Services Masters Students" 10 3 (10, 0) (13, 0)
    (some mwf_only)
  let b := Service.init "B" "Treasury" 8 3 (10, 0) (13, 0) (some mwf_only)
  let ea := Service.init "EA" "International Mobility Incoming Students" 12 3 (10, 0) (13, 0)
    (some mwf_only)
  let eb := Service.init "EB" "International Mobility Outgoing Students" 12 3 (10, 0) (13, 0)
    (some mwf_only)
  let g := Service.init "G" "Student Recruitment & Scholarships" 9 3 (10, 0) (13, 0)
    (some mwf_only)
  [aa, ab, b, ea, eb, g].foldl QueueSystem.add_service ⟨[]⟩

/-! ## Traces of mutating operations

The two mutating operations are `take_ticket` and `call_next`; a reachable
state is the result of running any finite interleaving of them from a freshly
constructed service. -/

/-- One mutating operation on a service. -/
inductive Op where
  | take (time : ℤ)
  | next
deriving DecidableEq

/-- Apply one operation, keeping the updated state. -/
def Service.step (s : Service) : Op → Service
  | .take time => (s.take_ticket time).1
  | .next => s.call_next.1

/-- Run a list of operations from left to right. -/
def Service.run : Service → List Op → Service
  | s, [] => s
  | s, op :: ops => (s.step op).run ops

/-- Number of `take` operations in a trace. -/
def countTake : List Op → ℕ
  | [] => 0
  | .take _ :: ops => countTake ops + 1
  | .next :: ops => countTake ops

/-- Sequence numbers of the tickets returned by the `take_ticket` calls of a
trace, in call order. -/
def Service.issuedNumbers : Service → List Op → List ℤ
  | _, [] => []
  | s, .take time :: ops =>
    (s.take_ticket time).2.number :: (s.take_ticket time).1.issuedNumbers ops
  | s, .next :: ops => s.call_next.1.issuedNumbers ops

/-- Sequence number of the current ticket, as a zero-or-one-element list. -/
def currentNumbers (s : Service) : List ℤ :=
  match s.current_ticket with
  | none => []
  | some t => [t.number]

/-- Every sequence number stored in the service, location by location:
current slot, then waiting queue, then served history. -/
def Service.allNumbers (s : Service) : List ℤ :=
  currentNumbers s ++ s.queue.map Ticket.number ++ s.served_tickets.map Ticket.number

/-- Mutual exclusion of ticket locations: no sequence number appears twice
across the current slot, the waiting queue and the served history. -/
def Service.Wf (s : Service) : Prop := s.allNumbers.Nodup

instance (s : Service) : Decidable s.Wf := List.nodupDecidable _

/-- The reachable-state invariant: locations are mutually exclusive, the
counter started at 1, and every stored number was issued below the counter. -/
def Service.Inv (s : Service) : Prop :=
  s.Wf ∧ 1 ≤ s.next_ticket_number ∧
    ∀ n ∈ s.allNumbers, 1 ≤ n ∧ n < s.next_ticket_number

theorem call_next_next_ticket_number (s : Service) :
    s.call_next.1.next_ticket_number = s.next_ticket_number := by
  rw [Service.call_next]
  cases s.queue <;> rfl

theorem call_next_allNumbers_perm (s : Service) :
    s.call_next.1.allNumbers.Perm s.allNumbers := by
  rcases hc : s.current_ticket with - | c <;> rcases hq : s.queue with - | ⟨h, rest⟩ <;>
    simp only [Service.call_next, Service.allNumbers, currentNumbers, hc, hq, List.map_append,
      List.map_cons, List.map_nil, List.nil_append, List.append_nil, List.cons_append] <;>
    try exact List.Perm.refl _
  · exact List.perm_append_singleton _ _
  · have p3 : (h.number :: (rest.map Ticket.number ++
        (s.served_tickets.map Ticket.number ++ [c.number]))).Perm
        (h.number :: (c.number ::
          (rest.map Ticket.number ++ s.served_tickets.map Ticket.number))) := by
      rw [← List.append_assoc]
      exact List.Perm.cons _ (List.perm_append_singleton _ _)
    exact p3.trans (List.Perm.swap _ _ _)

theorem take_ticket_allNumbers (s : Service) (time : ℤ) :
    (s.take_ticket time).1.allNumbers.Perm (s.next_ticket_number :: s.allNumbers) := by
  have h1 : (s.take_ticket time).1.allNumbers
      = (currentNumbers s ++ s.queue.map Ticket.number) ++
        s.next_ticket_number :: s.served_tickets.map Ticket.number := by
    rw [Service.allNumbers]
    have hq : (s.take_ticket time).1.queue = s.queue ++ [(s.take_ticket time).2] := rfl
    rw [hq, List.map_append]
    simp [Service.take_ticket, List.append_assoc, currentNumbers]
  rw [h1, Service.allNumbers]
  exact List.perm_middle

theorem take_ticket_next (s : Service) (time : ℤ) :
    (s.take_ticket time).1.next_ticket_number = s.next_ticket_number + 1 := rfl

theorem Inv_init (code description : String) (ast asc : ℤ) (ot ct : ℕ × ℕ)
    (wd : Option (List ℤ)) : (Service.init code description ast asc ot ct wd).Inv := by
  refine ⟨?_, ?_, ?_⟩ <;>
    simp [Service.init, Service.Wf, Service.allNumbers, currentNumbers]

theorem Inv_step {s : Service} (h : s.Inv) (op : Op) : (s.step op).Inv := by
  obtain ⟨hwf, hnext, hbounds⟩ := h
  cases op with
  | take time =>
    refine ⟨?_, ?_, ?_⟩
    · show ((s.take_ticket time).1).allNumbers.Nodup
      rw [(take_ticket_allNumbers s time).nodup_iff]
      refine List.nodup_cons.mpr ⟨fun hmem => ?_, hwf⟩
      exact absurd (hbounds _ hmem).2 (lt_irrefl _)
    · show 1 ≤ (s.take_ticket time).1.next_ticket_number
      rw [take_ticket_next]; omega
    · intro n hn
      have hn2 := (take_ticket_allNumbers s time).mem_iff.1 hn
      show 1 ≤ n ∧ n < (s.take_ticket time).1.next_ticket_number
      rw [take_ticket_next]
      rcases List.mem_cons.1 hn2 with rfl | hn3
      · omega
      · have := hbounds n hn3; omega
  | next =>
    refine ⟨?_, ?_, ?_⟩
    · show (s.call_next.1).allNumbers.Nodup
      rw [(call_next_allNumbers_perm s).nodup_iff]; exact hwf
    · show 1 ≤ s.call_next.1.next_ticket_number
      rw [call_next_next_ticket_number]; exact hnext
    · intro n hn
      show 1 ≤ n ∧ n < s.call_next.1.next_ticket_number
      rw [call_next_next_ticket_number]
      exact hbounds n ((call_next_allNumbers_perm s).mem_iff.1 hn)

theorem Inv_run (ops : List Op) : ∀ {s : Service}, s.Inv → (s.run ops).Inv := by
  induction ops with
  | nil => intro s h; exact h
  | cons op ops ih => intro s h; exact ih (Inv_step h op)

theorem issuedNumbers_eq (ops : List Op) :
    ∀ s : Service, s.issuedNumbers ops
      = (List.range (countTake ops)).map (fun i : ℕ => s.next_ticket_number + (i : ℤ)) := by
  induction ops with
  | nil => intro s; simp [Service.issuedNumbers, countTake]
  | cons op ops ih =>
    intro s
    cases op with
    | take time =>
      rw [Service.issuedNumbers, ih, countTake, List.range_succ_eq_map, List.map_cons,
        List.map_map, take_ticket_next]
      congr 1
      · show (s.take_ticket time).2.number = s.next_ticket_number + ((0 : ℕ) : ℤ)
        simp [Service.take_ticket]
      · refine List.map_congr_left fun i _ => ?_
        show s.next_ticket_number + 1 + (i : ℤ) = s.next_ticket_number + ((Nat.succ i : ℕ) : ℤ)
        push_cast
        ring
    | next =>
      rw [Service.issuedNumbers, ih, countTake, call_next_next_ticket_number]

/-! ## Status bookkeeping

`statusOf` reads off the status field of the ticket bearing a given sequence
number, looking at the current slot, then the queue, then the served history;
on well-formed states (no duplicated number) this identifies the one ticket
with that number. -/

/-- Status of the first ticket in a list bearing the given number. -/
def statusInList : List Ticket → ℤ → Option String
  | [], _ => none
  | t :: rest, n => if t.number = n then some t.status else statusInList rest n

/-- Queue-then-served status lookup. -/
def statusIn2 (queue served : List Ticket) (n : ℤ) : Option String :=
  match statusInList queue n with
  | some st => some st
  | none => statusInList served n

/-- Status of the ticket bearing number `n`, wherever it is stored. -/
def Service.statusOf (s : Service) (n : ℤ) : Option String :=
  match s.current_ticket with
  | some t =>
    if t.number = n then some t.status else statusIn2 s.queue s.served_tickets n
  | none => statusIn2 s.queue s.served_tickets n

theorem statusInList_eq_none_iff (l : List Ticket) (n : ℤ) :
    statusInList l n = none ↔ n ∉ l.map Ticket.number := by
  induction l with
  | nil => simp [statusInList]
  | cons t rest ih =>
    rw [statusInList]
    by_cases h : t.number = n
    · simp [h]
    · simp only [if_neg h, ih, List.map_cons, List.mem_cons]
      constructor
      · intro h2 h3
        rcases h3 with h4 | h4
        · exact h (h4.symm)
        · exact h2 h4
      · intro h2 h3
        exact h2 (Or.inr h3)

theorem statusInList_append_of_not_mem (l1 l2 : List Ticket) (n : ℤ)
    (h : n ∉ l1.map Ticket.number) :
    statusInList (l1 ++ l2) n = statusInList l2 n := by
  induction l1 with
  | nil => rfl
  | cons t rest ih =>
    rw [List.cons_append, statusInList]
    have ht : t.number ≠ n := by
      intro he; exact h (by simp [he])
    rw [if_neg ht]
    exact ih (fun hm => h (by simp at hm ⊢; exact Or.inr hm))

theorem statusInList_append_left {l1 : List Ticket} {n : ℤ} {v : String}
    (h : statusInList l1 n = some v) (l2 : List Ticket) :
    statusInList (l1 ++ l2) n = some v := by
  induction l1 with
  | nil => simp [statusInList] at h
  | cons t rest ih =>
    rw [List.cons_append, statusInList]
    rw [statusInList] at h
    by_cases ht : t.number = n
    · rw [if_pos ht] at h ⊢; exact h
    · rw [if_neg ht] at h ⊢; exact ih h

theorem call_next_frame_aux :
    ∀ s : Service, s.Wf → ∀ n : ℤ,
    s.call_next.1.statusOf n =
      if s.current_ticket.map Ticket.number = some n then some "done"
      else if s.queue.head?.map Ticket.number = some n then some "serving"
      else s.statusOf n := by
  rintro ⟨cd, dsc, ast, asc, otm, ctm, wds, nxt, qu, cur, srv⟩ h n
  rcases cur with - | c <;> rcases qu with - | ⟨hd, rest⟩
  · -- no current ticket, empty queue: nothing changes
    simp [Service.call_next, Service.statusOf, statusIn2, statusInList]
  · -- no current ticket, head `hd` promoted to serving
    by_cases hn : hd.number = n
    · simp [Service.call_next, Service.statusOf, statusIn2, statusInList, hn]
    · simp [Service.call_next, Service.statusOf, statusIn2, statusInList, hn]
  · -- current ticket `c` completed, queue stays empty
    simp only [Service.Wf, Service.allNumbers, currentNumbers, List.map_nil, List.map_cons,
      List.append_nil, List.nil_append, List.singleton_append] at h
    have hcm : c.number ∉ srv.map Ticket.number := (List.nodup_cons.mp h).1
    have hL : (⟨cd, dsc, ast, asc, otm, ctm, wds, nxt, [], some c, srv⟩ :
        Service).call_next.1.statusOf n
        = statusInList (srv ++ [{ c with status := "done" }]) n := by
      simp [Service.call_next, Service.statusOf, statusIn2, statusInList]
    rw [hL]
    by_cases hn : c.number = n
    · rw [statusInList_append_of_not_mem _ _ _ (hn ▸ hcm)]
      simp [statusInList, hn]
    · rcases hsrv : statusInList srv n with - | v
      · rw [statusInList_append_of_not_mem _ _ _ ((statusInList_eq_none_iff _ _).mp hsrv)]
        simp [statusInList, hn, Service.statusOf, statusIn2, hsrv]
      · rw [statusInList_append_left hsrv]
        simp [Service.statusOf, statusIn2, statusInList, hsrv, hn]
  · -- current ticket `c` completed, head `hd` promoted
    simp only [Service.Wf, Service.allNumbers, currentNumbers, List.map_cons,
      List.cons_append, List.nil_append, List.singleton_append] at h
    rw [List.nodup_cons] at h
    obtain ⟨hcmem, h2⟩ := h
    rw [List.nodup_cons] at h2
    obtain ⟨hhdmem, -⟩ := h2
    have hchd : c.number ≠ hd.number := fun he => hcmem (by simp [he])
    have hcrest : c.number ∉ rest.map Ticket.number := fun hm => hcmem (by simp [hm])
    have hcsrv : c.number ∉ srv.map Ticket.number := fun hm => hcmem (by simp [hm])
    have hL : (⟨cd, dsc, ast, asc, otm, ctm, wds, nxt, hd :: rest, some c, srv⟩ :
        Service).call_next.1.statusOf n
        = (if hd.number = n then some "serving"
          else statusIn2 rest (srv ++ [{ c with status := "done" }]) n) := by
      simp [Service.call_next, Service.statusOf, statusIn2, statusInList]
    rw [hL]
    by_cases hn : c.number = n
    · -- the outgoing current ticket: reported as done afterwards
      rw [if_neg (fun he => hchd (hn.trans he.symm))]
      rw [statusIn2, (statusInList_eq_none_iff rest n).mpr (hn ▸ hcrest),
        statusInList_append_of_not_mem _ _ _ (hn ▸ hcsrv)]
      simp [statusInList, hn]
    · by_cases hhdn : hd.number = n
      · rw [if_pos hhdn]
        simp [hhdn, hn]
      · rw [if_neg hhdn]
        have hR : (if Option.map Ticket.number (some c) = some n then some "done"
            else if Option.map Ticket.number (hd :: rest).head? = some n then some "serving"
            else Service.statusOf ⟨cd, dsc, ast, asc, otm, ctm, wds, nxt,
              hd :: rest, some c, srv⟩ n)
            = statusIn2 rest srv n := by
          rw [if_neg (by simpa using hn), if_neg (by simpa using hhdn)]
          simp [Service.statusOf, statusIn2, statusInList, hn, hhdn]
        rw [hR, statusIn2, statusIn2]
        rcases hrest : statusInList rest n with - | v
        · rcases hsrv : statusInList srv n with - | w
          · rw [statusInList_append_of_not_mem _ _ _ ((statusInList_eq_none_iff _ _).mp hsrv)]
            simp [statusInList, hn]
          · rw [statusInList_append_left hsrv]
        · rfl

theorem firstIdxWithNumber_eq_indexOf? (l : List Ticket) (n : ℤ) :
    firstIdxWithNumber l n = (l.map Ticket.number).indexOf? n := by
  induction l with
  | nil => rfl
  | cons t rest ih =>
    rw [firstIdxWithNumber, List.map_cons, List.indexOf?_cons, ih]
    by_cases h : t.number = n
    · simp [h]
    · rcases hri : (rest.map Ticket.number).indexOf? n with - | i <;>
        simp [h, hri, Nat.succ_eq_add_one]

theorem firstIdxWithNumber_eq_none_iff (l : List Ticket) (n : ℤ) :
    firstIdxWithNumber l n = none ↔ n ∉ l.map Ticket.number := by
  induction l with
  | nil => simp [firstIdxWithNumber]
  | cons t rest ih =>
    rw [firstIdxWithNumber]
    by_cases h : t.number = n
    · simp [h]
    · rw [if_neg h, List.map_cons]
      constructor
      · intro h2 hm
        rcases List.mem_cons.mp hm with he | hm2
        · exact h he.symm
        · rcases hri : firstIdxWithNumber rest n with - | i
          · exact (ih.mp hri) hm2
          · rw [hri] at h2; simp at h2
      · intro h2
        have hnm : n ∉ rest.map Ticket.number := fun hm => h2 (List.mem_cons.mpr (Or.inr hm))
        rw [ih.mpr hnm]
        rfl

theorem mem_allNumbers_current {s : Service} {c : Ticket} (hc : s.current_ticket = some c) :
    c.number ∈ s.allNumbers := by
  simp [Service.allNumbers, currentNumbers, hc]

theorem mem_allNumbers_queue {s : Service} {t : Ticket} (ht : t ∈ s.queue) :
    t.number ∈ s.allNumbers := by
  rw [Service.allNumbers]
  exact List.mem_append.mpr (Or.inl (List.mem_append.mpr (Or.inr (List.mem_map_of_mem _ ht))))

theorem mem_allNumbers_served {s : Service} {t : Ticket} (ht : t ∈ s.served_tickets) :
    t.number ∈ s.allNumbers := by
  rw [Service.allNumbers]
  exact List.mem_append.mpr (Or.inr (List.mem_map_of_mem _ ht))

theorem find_ticket_status_not_found (s : Service) (n : ℤ)
    (h : ∀ m ∈ s.allNumbers, m ≠ n) :
    s.find_ticket_status n = ("not_found", none) := by
  have hq : firstIdxWithNumber s.queue n = none := by
    rw [firstIdxWithNumber_eq_none_iff]
    intro hm
    obtain ⟨t, ht, hte⟩ := List.mem_map.mp hm
    exact h t.number (mem_allNumbers_queue ht) hte
  have hsrv : s.served_tickets.any (fun t => t.number == n) = false := by
    rw [← Bool.not_eq_true, List.any_eq_true]
    rintro ⟨t, ht, hte⟩
    exact h t.number (mem_allNumbers_served ht) (by simpa using hte)
  have hlwd : s.lookupWaitingOrDone n = ("not_found", none) := by
    rw [Service.lookupWaitingOrDone, hq, hsrv]
    simp
  rcases hc : s.current_ticket with - | c
  · simp only [Service.find_ticket_status, hc]
    exact hlwd
  · simp only [Service.find_ticket_status, hc]
    rw [if_neg (h c.number (mem_allNumbers_current hc)), hlwd]

theorem Service.staff_pos (s : Service) : 0 < s.staff := by
  rw [Service.staff]; split <;> omega

theorem staff_eq_max (s : Service) : s.staff = max 1 s.avg_staff_count := by
  rw [Service.staff]; split <;> omega

theorem dval_pair_mul (a b : ℤ × ℤ) : dval (a.1 * b.1, a.2 + b.2) = dval a * dval b := by
  rw [dval, dval, dval]
  push_cast
  rw [zpow_add₀ (two_ne_zero (α := ℚ))]
  ring

theorem estCore_flSpec (st t : ℤ) (hst : 0 < st) (htpos : 0 < t) {e : ℤ} (he : 0 < e) :
    FlSpec (dval (flRat e st.toNat) * dval (flRat t 1))
      (flDyadic ((flRat e st.toNat).1 * (flRat t 1).1)
        ((flRat e st.toNat).2 + (flRat t 1).2)) := by
  have hstn : (0 : ℕ) < st.toNat := by omega
  have hq := flRat_flSpec (n := e) (d := st.toNat) he hstn
  have ht1 := flRat_flSpec (n := t) (d := 1) htpos one_pos
  have hm1 : (0 : ℤ) < (flRat e st.toNat).1 := lt_of_lt_of_le (by positivity) hq.1
  have hm2 : (0 : ℤ) < (flRat t 1).1 := lt_of_lt_of_le (by positivity) ht1.1
  have hD := flDyadic_flSpec (m := (flRat e st.toNat).1 * (flRat t 1).1)
    (e := (flRat e st.toNat).2 + (flRat t 1).2) (mul_pos hm1 hm2)
  rwa [show (((flRat e st.toNat).1 * (flRat t 1).1 : ℤ) : ℚ) *
      2 ^ ((flRat e st.toNat).2 + (flRat t 1).2)
      = dval (flRat e st.toNat) * dval (flRat t 1) by rw [← dval_pair_mul]; rfl] at hD

theorem estCore_nonneg (st t : ℤ) (hst : 0 < st) (htpos : 0 < t) {e : ℤ} (he : 0 < e) :
    0 ≤ truncDyadic (flDyadic ((flRat e st.toNat).1 * (flRat t 1).1)
      ((flRat e st.toNat).2 + (flRat t 1).2)) := by
  have hD := estCore_flSpec st t hst htpos he
  rw [truncDyadic_eq_floor (le_trans (by positivity) hD.1)]
  exact Int.floor_nonneg.mpr (le_of_lt hD.dval_pos)

theorem estCore_mono (st t : ℤ) (hst : 0 < st) (htpos : 0 < t) {e1 e2 : ℤ}
    (he1 : 0 < e1) (he : e1 ≤ e2) :
    truncDyadic (flDyadic ((flRat e1 st.toNat).1 * (flRat t 1).1)
      ((flRat e1 st.toNat).2 + (flRat t 1).2))
    ≤ truncDyadic (flDyadic ((flRat e2 st.toNat).1 * (flRat t 1).1)
      ((flRat e2 st.toNat).2 + (flRat t 1).2)) := by
  have hstn : (0 : ℕ) < st.toNat := by omega
  have hstq : (0 : ℚ) < (st.toNat : ℚ) := by exact_mod_cast hstn
  have hq1 := flRat_flSpec (n := e1) (d := st.toNat) he1 hstn
  have hq2 := flRat_flSpec (n := e2) (d := st.toNat) (by omega) hstn
  have ht1 := flRat_flSpec (n := t) (d := 1) htpos one_pos
  have hquot : (e1 : ℚ) / (st.toNat : ℚ) ≤ (e2 : ℚ) / (st.toNat : ℚ) := by
    gcongr
  have hdq : dval (flRat e1 st.toNat) ≤ dval (flRat e2 st.toNat) :=
    hq1.dval_le hq2 hquot
  have hdt : (0 : ℚ) < dval (flRat t 1) := ht1.dval_pos
  have hval : dval (flRat e1 st.toNat) * dval (flRat t 1)
      ≤ dval (flRat e2 st.toNat) * dval (flRat t 1) :=
    mul_le_mul_of_nonneg_right hdq (le_of_lt hdt)
  have hD1 := estCore_flSpec st t hst htpos he1
  have hD2 := estCore_flSpec st t hst htpos (show (0 : ℤ) < e2 by omega)
  rw [truncDyadic_eq_floor (le_trans (by positivity) hD1.1),
    truncDyadic_eq_floor (le_trans (by positivity) hD2.1)]
  exact Int.floor_le_floor (hD1.dval_le hD2 hval)

theorem estimate_nonneg (s : Service) (ht : 0 < s.avg_service_time_min) (p : ℤ) :
    0 ≤ s.estimate_waiting_from_position p := by
  rw [Service.estimate_waiting_from_position]
  by_cases hp : p < s.staff
  · rw [if_pos hp]
  · rw [if_neg hp]
    exact estCore_nonneg s.staff s.avg_service_time_min s.staff_pos ht
      (by have := s.staff_pos; omega)

theorem estimate_mono (s : Service) (ht : 0 < s.avg_service_time_min) {p q : ℤ}
    (hpq : p ≤ q) :
    s.estimate_waiting_from_position p ≤ s.estimate_waiting_from_position q := by
  by_cases hp : p < s.staff
  · rw [Service.estimate_waiting_from_position, if_pos hp]
    exact estimate_nonneg s ht q
  · have hq2 : ¬q < s.staff := by omega
    rw [Service.estimate_waiting_from_position, if_neg hp,
      Service.estimate_waiting_from_position, if_neg hq2]
    exact estCore_mono s.staff s.avg_service_time_min s.staff_pos ht
      (by have := s.staff_pos; omega) (by omega)

/-! ## Claim theorems -/

/-- Refinement-side restatement of the estimator formula in the wording of the
claims: `staff = max(1, avg_staff_count)`, zero below `staff`, otherwise the
binary64 evaluation of `(people_ahead - staff + 1) / staff * avg_service_time`
truncated toward zero. -/
def estimateSpecFloat (staff_cfg t p : ℤ) : ℤ :=
  let staff := max 1 staff_cfg
  if p < staff then 0
  else
    truncDyadic (flDyadic ((flRat (p - staff + 1) staff.toNat).1 * (flRat t 1).1)
      ((flRat (p - staff + 1) staff.toNat).2 + (flRat t 1).2))

/-- Refinement-side restatement of the C6 formula over the exact rationals:
`floor((people_ahead - staff + 1) / staff * avg_service_time)` with
`staff = max(1, avg_staff_count)`. -/
def estimateSpecExact (staff_cfg t p : ℤ) : ℤ :=
  let staff := max 1 staff_cfg
  if p < staff then 0
  else ⌊((p - staff + 1 : ℤ) : ℚ) / ((staff : ℤ) : ℚ) * ((t : ℤ) : ℚ)⌋

set_option maxRecDepth 1000000

/-- C1 (counterexample): for the service with average service time 2 (positive)
and 3 counters, `people_ahead = 3` is not below `staff = 3` yet the estimate is
`int((1/3)*2) = 0`, so "estimate is 0 iff people_ahead < staff" fails. -/
theorem claim1_counterexample :
    ¬((Service.init "X" "X" 2 3 (10, 0) (13, 0) none).estimate_waiting_from_position 3 = 0
      ↔ (3 : ℤ) < (Service.init "X" "X" 2 3 (10, 0) (13, 0) none).staff) := by
  decide

/-- C1 (amended): for every Service with positive average service time the wait
estimate is 0 whenever `people_ahead < staff` (the configured counter count
floored at 1), and the estimate is non-decreasing as `people_ahead` increases;
the converse of the zero case is dropped, since the estimate can also be 0 at
`people_ahead ≥ staff` when the first float round truncates to zero. -/
theorem claim1_estimate_zero_below_staff_and_monotone (s : Service)
    (ht : 0 < s.avg_service_time_min) :
    (∀ p : ℤ, p < s.staff → s.estimate_waiting_from_position p = 0)
    ∧ ∀ p q : ℤ, 0 ≤ p → p ≤ q →
        s.estimate_waiting_from_position p ≤ s.estimate_waiting_from_position q := by
  constructor
  · intro p hp
    rw [Service.estimate_waiting_from_position, if_pos hp]
  · intro p q hp hpq
    exact estimate_mono s ht hpq

/-- Witness for the amended C1 at the default configuration (10 minutes, three
counters): positive service time, estimate 0 at position 2, monotone from
position 3 to position 5. -/
theorem claim1_witness :
    0 < (Service.init "X" "X" 10 3 (10, 0) (13, 0) none).avg_service_time_min
    ∧ (Service.init "X" "X" 10 3 (10, 0) (13, 0) none).estimate_waiting_from_position 2 = 0
    ∧ (Service.init "X" "X" 10 3 (10, 0) (13, 0) none).estimate_waiting_from_position 3
      ≤ (Service.init "X" "X" 10 3 (10, 0) (13, 0) none).estimate_waiting_from_position 5 :=
  ⟨by decide,
    (claim1_estimate_zero_below_staff_and_monotone _ (by decide)).1 2 (by decide),
    (claim1_estimate_zero_below_staff_and_monotone _ (by decide)).2 3 5 (by decide) (by decide)⟩

/-- C2: every `call_next` call appends the current ticket (marked done) to the
served history when one exists; with an empty waiting queue it clears the
current slot and returns none; otherwise it pops the head of the queue, marks
it serving, installs it as current and returns it. -/
theorem claim2_call_next_spec (s : Service) :
    (s.call_next.1.served_tickets
      = s.served_tickets ++ (s.current_ticket.map fun t => { t with status := "done" }).toList)
    ∧ (s.queue = [] → s.call_next.1.current_ticket = none ∧ s.call_next.2 = none)
    ∧ ∀ t rest, s.queue = t :: rest →
        s.call_next.2 = some { t with status := "serving" }
        ∧ s.call_next.1.current_ticket = some { t with status := "serving" }
        ∧ s.call_next.1.queue = rest := by
  refine ⟨?_, fun he => ?_, fun t rest2 he => ?_⟩
  · rcases hc : s.current_ticket with - | c <;> rcases hq : s.queue with - | ⟨hd, rest⟩ <;>
      simp [Service.call_next, hc, hq]
  · rcases hc : s.current_ticket with - | c <;> simp [Service.call_next, hc, he]
  · rcases hc : s.current_ticket with - | c <;> simp [Service.call_next, hc, he]

/-- Witness for C2 on a freshly constructed service: the empty-queue branch
clears the current slot and returns none. -/
theorem claim2_witness :
    (Service.init "X" "X" 10 3 (10, 0) (13, 0) none).call_next.1.current_ticket = none
    ∧ (Service.init "X" "X" 10 3 (10, 0) (13, 0) none).call_next.2 = none :=
  (claim2_call_next_spec (Service.init "X" "X" 10 3 (10, 0) (13, 0) none)).2.1 rfl

/-- C3: `find_ticket_status` decides among the four variants in priority order:
the current ticket first, then the zero-based index of the first match in the
waiting queue (paired with the wait estimate at that index), then the served
history, else `not_found` — always returning a value, never failing. -/
theorem claim3_find_ticket_status_spec (s : Service) (n : ℤ) :
    s.find_ticket_status n =
      if s.current_ticket.map Ticket.number = some n then ("serving", none)
      else
        match (s.queue.map Ticket.number).indexOf? n with
        | some i => ("waiting", some (i, s.estimate_waiting_from_position (i : ℤ)))
        | none =>
          if n ∈ s.served_tickets.map Ticket.number then ("done", none)
          else ("not_found", none) := by
  have hbr : s.lookupWaitingOrDone n =
      (match (s.queue.map Ticket.number).indexOf? n with
      | some i => ("waiting", some (i, s.estimate_waiting_from_position (i : ℤ)))
      | none =>
        if n ∈ s.served_tickets.map Ticket.number then ("done", none)
        else ("not_found", none)) := by
    rw [Service.lookupWaitingOrDone, ← firstIdxWithNumber_eq_indexOf?]
    rcases hidx : firstIdxWithNumber s.queue n with - | i
    · by_cases hs : n ∈ s.served_tickets.map Ticket.number
      · obtain ⟨t, ht, hte⟩ := List.mem_map.mp hs
        rw [if_pos (List.any_eq_true.mpr ⟨t, ht, by simp [hte]⟩), if_pos hs]
      · rw [if_neg ?neg, if_neg hs]
        case neg =>
          rw [List.any_eq_true]
          rintro ⟨t, ht, hte⟩
          exact hs (List.mem_map.mpr ⟨t, ht, by simpa using hte⟩)
    · rfl
  rcases hc : s.current_ticket with - | c
  · simp only [Service.find_ticket_status, hc]
    rw [hbr,
      if_neg (show ¬(Option.map Ticket.number (none : Option Ticket) = some n) by simp)]
  · simp only [Service.find_ticket_status, hc]
    by_cases hn : c.number = n
    · rw [if_pos hn, if_pos (show Option.map Ticket.number (some c) = some n by simp [hn])]
    · rw [if_neg hn, hbr,
        if_neg (show ¬(Option.map Ticket.number (some c) = some n) from by simpa using hn)]

/-- C4: the numbers of the tickets returned by the `take_ticket` calls of any
trace from a fresh service are exactly 1, 2, 3, ... in order — strictly
increasing by 1, starting at 1, never reused even across `call_next` calls —
and each `take_ticket` returns a waiting ticket carrying the next sequence
number, appended at the tail, with the counter incremented. -/
theorem claim4_take_ticket_numbers (code description : String) (ast asc : ℤ)
    (ot ct : ℕ × ℕ) (wd : Option (List ℤ)) (ops : List Op) :
    (Service.init code description ast asc ot ct wd).issuedNumbers ops
      = (List.range (countTake ops)).map (fun i : ℕ => 1 + (i : ℤ))
    ∧ ∀ (s : Service) (time : ℤ),
        (s.take_ticket time).2
          = { service_code := s.code, number := s.next_ticket_number,
              time_taken_minutes := time, status := "waiting" }
        ∧ (s.take_ticket time).1.queue = s.queue ++ [(s.take_ticket time).2]
        ∧ (s.take_ticket time).1.next_ticket_number = s.next_ticket_number + 1 := by
  refine ⟨?_, fun s time => ⟨rfl, rfl, rfl⟩⟩
  rw [issuedNumbers_eq]
  rfl

/-- C5: `is_open` is true exactly when the weekday is allowed and the time lies
in the half-open window `[opening, closing)`; in particular it is false for
any weekday outside the allowed set (the embedding is a pure function, so it
has no side effects). -/
theorem claim5_is_open_spec (s : Service) (current_time_min weekday : ℤ) :
    (s.is_open current_time_min weekday = true
      ↔ weekday ∈ s.allowed_weekdays ∧ s.opening_time_min ≤ current_time_min
        ∧ current_time_min < s.closing_time_min)
    ∧ (weekday ∉ s.allowed_weekdays → s.is_open current_time_min weekday = false) := by
  refine ⟨⟨fun h => ?_, fun h => ?_⟩, fun hm => ?_⟩
  · rw [Service.is_open] at h
    by_cases h1 : weekday ∉ s.allowed_weekdays
    · rw [if_pos h1] at h; cases h
    · rw [if_neg h1] at h
      by_cases h2 : current_time_min < s.opening_time_min
      · rw [if_pos h2] at h; cases h
      · rw [if_neg h2] at h
        by_cases h3 : current_time_min ≥ s.closing_time_min
        · rw [if_pos h3] at h; cases h
        · exact ⟨not_not.mp h1, by omega, by omega⟩
  · obtain ⟨hm, ho, hcl⟩ := h
    rw [Service.is_open, if_neg (by simpa using hm), if_neg (by omega), if_neg (by omega)]
  · rw [Service.is_open, if_pos hm]

/-- Witness for C5: a Tuesday (weekday 1) query against the Monday-Wednesday-
Friday catalog schedule is closed regardless of an in-window time. -/
theorem claim5_witness :
    ((1 : ℤ) ∉ (Service.init "X" "X" 10 3 (10, 0) (13, 0) (some [0, 2, 4])).allowed_weekdays)
    ∧ (Service.init "X" "X" 10 3 (10, 0) (13, 0) (some [0, 2, 4])).is_open 630 1 = false :=
  ⟨by decide,
    (claim5_is_open_spec (Service.init "X" "X" 10 3 (10, 0) (13, 0) (some [0, 2, 4])) 630 1).2
      (by decide)⟩

/-- C6 (amended): the wait estimate is 0 below `staff = max(1, avg_staff_count)`
and otherwise equals `(people_ahead - staff + 1) / staff * avg_service_time`
evaluated in binary64 floating-point arithmetic and truncated toward zero, as
the Python source computes it — not the exact rational floor, from which it can
differ (see the counterexample). -/
theorem claim6_estimate_eq_float_formula (s : Service) (p : ℤ) :
    s.estimate_waiting_from_position p
      = estimateSpecFloat s.avg_staff_count s.avg_service_time_min p := by
  simp only [Service.estimate_waiting_from_position, estimateSpecFloat]
  rw [← staff_eq_max s]

/-- C6 (counterexample): with 49 counters and a 49-minute average service time,
at `people_ahead = 49` the code computes `int((1/49)*49) = 0` in binary64
(where `(1/49)*49 < 1`), while the exact rational floor is 1. -/
theorem claim6_counterexample :
    (Service.init "Y" "Y" 49 49 (10, 0) (13, 0) none).estimate_waiting_from_position 49
      ≠ estimateSpecExact 49 49 49 := by
  have h1 : (Service.init "Y" "Y" 49 49 (10, 0) (13, 0) none).estimate_waiting_from_position 49
      = 0 := by decide
  have h2 : estimateSpecExact 49 49 49 = 1 := by
    simp only [estimateSpecExact]
    norm_num [show max 1 (49 : ℤ) = 49 from by decide, Int.floor_one]
  rw [h1, h2]
  decide

/-- C7: in every state reachable from a fresh service by `take_ticket` and
`call_next` calls, no sequence number appears in more than one location: the
list of numbers in the current slot (at most one, by the `Option` shape of the
slot), the waiting queue and the served history has no duplicate, so each
ticket sits in exactly one location and both operations preserve this. -/
theorem claim7_locations_mutually_exclusive (code description : String) (ast asc : ℤ)
    (ot ct : ℕ × ℕ) (wd : Option (List ℤ)) (ops : List Op) :
    ((Service.init code description ast asc ot ct wd).run ops).allNumbers.Nodup :=
  (Inv_run ops (Inv_init code description ast asc ot ct wd)).1

/-- C8: one `call_next` invocation only touches two statuses: on a well-formed
state the ticket bearing the outgoing current number is afterwards reported
`done` (no such change happens when there is no current ticket), the ticket at
the head of the queue is promoted to `serving`, and the status of every other
ticket is unchanged. -/
theorem claim8_call_next_frame (s : Service) (h : s.Wf) (n : ℤ) :
    s.call_next.1.statusOf n =
      if s.current_ticket.map Ticket.number = some n then some "done"
      else if s.queue.head?.map Ticket.number = some n then some "serving"
      else s.statusOf n :=
  call_next_frame_aux s h n

/-- Witness for C8 on a three-ticket state: ticket 1 is current, tickets 2 and
3 wait; after `call_next`, ticket 1 is reported done. -/
theorem claim8_witness :
    ((⟨"X", "X", 10, 3, 600, 780, [0, 1, 2, 3, 4], 4,
      [⟨"X", 2, 0, "waiting"⟩, ⟨"X", 3, 0, "waiting"⟩],
      some ⟨"X", 1, 0, "serving"⟩, []⟩ : Service).call_next.1.statusOf 1) = some "done" :=
  (claim8_call_next_frame _ (by decide) 1).trans (by decide)

/-- C9: in every reachable state all stored sequence numbers lie in
`[1, next_ticket_number)`, and `find_ticket_status` answers `not_found` for
every number at or below 0 and every number at or above the counter. -/
theorem claim9_numbers_in_range (code description : String) (ast asc : ℤ)
    (ot ct : ℕ × ℕ) (wd : Option (List ℤ)) (ops : List Op) :
    (∀ n ∈ ((Service.init code description ast asc ot ct wd).run ops).allNumbers,
        1 ≤ n ∧ n < ((Service.init code description ast asc ot ct wd).run ops).next_ticket_number)
    ∧ ∀ n : ℤ,
        (n ≤ 0
          ∨ ((Service.init code description ast asc ot ct wd).run ops).next_ticket_number ≤ n) →
        ((Service.init code description ast asc ot ct wd).run ops).find_ticket_status n
          = ("not_found", none) := by
  have hInv := Inv_run ops (Inv_init code description ast asc ot ct wd)
  refine ⟨hInv.2.2, fun n hn => ?_⟩
  apply find_ticket_status_not_found
  intro m hm he
  have hb := hInv.2.2 m hm
  rcases hn with hn | hn <;> omega

/-- Witness for C9 after issuing one ticket: the stored number 1 is in range,
and the never-issued number 5 is reported not found. -/
theorem claim9_witness :
    ((1 : ℤ) ≤ 1
      ∧ (1 : ℤ) < ((Service.init "X" "X" 10 3 (10, 0) (13, 0) none).run
          [Op.take 600]).next_ticket_number)
    ∧ ((Service.init "X" "X" 10 3 (10, 0) (13, 0) none).run
        [Op.take 600]).find_ticket_status 5 = ("not_found", none) :=
  ⟨(claim9_numbers_in_range "X" "X" 10 3 (10, 0) (13, 0) none [Op.take 600]).1 1 (by decide),
    (claim9_numbers_in_range "X" "X" 10 3 (10, 0) (13, 0) none [Op.take 600]).2 5 (by decide)⟩

/-- C10: constructing a Service without `allowed_weekdays` (passing none)
defaults to Monday through Friday `[0, 1, 2, 3, 4]`; the default catalog does
not rely on that default but passes Monday/Wednesday/Friday `[0, 2, 4]`
explicitly to every service. -/
theorem claim10_default_weekdays :
    (∀ (code description : String) (ast asc : ℤ) (ot ct : ℕ × ℕ),
      (Service.init code description ast asc ot ct none).allowed_weekdays = [0, 1, 2, 3, 4])
    ∧ ∀ p ∈ create_default_system.services, p.2.allowed_weekdays = [0, 2, 4] :=
  ⟨fun _ _ _ _ _ _ => rfl, by decide⟩

/-- Witness for C10: the catalog entry for code AA carries the explicit
Monday/Wednesday/Friday list. -/
theorem claim10_witness :
    (Service.init "AA" "Academic Services Bachelor Students" 10 3 (10, 0) (13, 0)
      (some [0, 2, 4])).allowed_weekdays = [0, 2, 4] :=
  claim10_default_weekdays.2
    ("AA", Service.init "AA" "Academic Services Bachelor Students" 10 3 (10, 0) (13, 0)
      (some [0, 2, 4])) (by decide)
